import Mathlib

/-
Formal model of `.circleci/scripts/should_run_job.py`.

The script reads the latest commit message, scans it with the regular
expression `\[(?:([^ \[\]]+) )?(?:ci|test)(?: ([^ \[\]]+))?\]` using
`re.finditer`, and walks the matches in textual order:

  for m in markers:
      if m.group(1) and m.group(2):
          print("Unrecognized marker: ...")
          continue
      spec = m.group(1) or m.group(2)
      if spec in args.build_environment or spec == 'all':
          sys.exit(0)            -- accepted via commit marker
  for spec in default_set:
      if spec in args.build_environment:
          sys.exit(0)            -- accepted via default set
  sys.exit(1)                    -- rejected

The regex is embedded as an executable matcher on `List Char`.  Because the
character class `[^ \[\]]` excludes the space and both brackets, the greedy
`+` runs can never profitably backtrack: a run is always the maximal run of
non-space, non-bracket characters starting at the current position.  The
only genuine backtracking points are the two optional groups, which the
functions below try in the same order Python does (group present first).

Note the modelled failure mode: for a bare marker such as `[ci]` both
capture groups are `None`, so `spec = m.group(1) or m.group(2)` is `None`
and `None in args.build_environment` raises `TypeError`; the model returns
`Except.error ()` for this case.
-/

namespace ShouldRunJob

/-- The regex character class `[^ \[\]]`: anything but space and the two
square brackets. -/
def isWordChar (c : Char) : Bool := c != ' ' && c != '[' && c != ']'

/-- Python's substring test `needle in haystack` (`str.__contains__`),
specialised to character lists.  The empty needle is contained in
everything, as in Python. -/
def containsSub : List Char → List Char → Bool
  | needle, [] => needle.isEmpty
  | needle, c :: rest => needle.isPrefixOf (c :: rest) || containsSub needle rest

/-- The mandatory token alternative `(?:ci|test)`: consume `ci` or `test`
from the front, returning the remainder.  The two alternatives can never
both be prefixes of the same text, so committing to the first matching one
is exactly Python's backtracking behaviour. -/
def coreTokens (cs : List Char) : Option (List Char) :=
  if ['c', 'i'].isPrefixOf cs then some (cs.drop 2)
  else if ['t', 'e', 's', 't'].isPrefixOf cs then some (cs.drop 4)
  else none

/-- The tail of the marker after the `ci`/`test` token: the optional second
group followed by the closing bracket, `(?: ([^ \[\]]+))?\]`.  Returns the
captured group (if any) and the text after the `]`.  Python tries the
group-present branch first; the two branches need different first
characters (space vs `]`), so they never compete. -/
def tryTail : List Char → Option (Option (List Char) × List Char)
  | [] => none
  | c :: cs =>
    if c = ']' then some (none, cs)
    else if c = ' ' then
      if (cs.dropWhile isWordChar).head? = some ']' ∧ cs.takeWhile isWordChar ≠ [] then
        some (some (cs.takeWhile isWordChar), (cs.dropWhile isWordChar).tail)
      else none
    else none

/-- The marker body from the token onwards: `(?:ci|test)(?: ([^ \[\]]+))?\]`. -/
def tryCore (cs : List Char) : Option (Option (List Char) × List Char) :=
  match coreTokens cs with
  | some rest => tryTail rest
  | none => none

/-- Match the marker body after an opening `[`:
`(?:([^ \[\]]+) )?(?:ci|test)(?: ([^ \[\]]+))?\]`.
Returns the two capture groups and the text after the closing `]`.
Python's backtracking tries the first optional group present (greedy `?`),
and falls back to the group-absent parse if the rest of the pattern fails. -/
def matchAfterBracket (cs : List Char) : Option (Option (List Char) × Option (List Char) × List Char) :=
  match cs.dropWhile isWordChar with
  | c :: afterSp =>
    if c = ' ' ∧ cs.takeWhile isWordChar ≠ [] then
      match tryCore afterSp with
      | some (g2, rest) => some (some (cs.takeWhile isWordChar), g2, rest)
      | none =>
        match tryCore cs with
        | some (g2, rest) => some (none, g2, rest)
        | none => none
    else
      match tryCore cs with
      | some (g2, rest) => some (none, g2, rest)
      | none => none
  | [] =>
    match tryCore cs with
    | some (g2, rest) => some (none, g2, rest)
    | none => none

/-- One regex match: the two optional capture groups. -/
abbrev Marker := Option (List Char) × Option (List Char)

/-- `re.finditer` scanning, fuelled: try to match at each position, left to
right; on a match, continue after its end (non-overlapping matches), else
advance one character.  Every step consumes at least one character, so
`fuel = length of the text` always suffices (`findMarkersF_congr` below). -/
def findMarkersF : Nat → List Char → List Marker
  | 0, _ => []
  | _ + 1, [] => []
  | fuel + 1, c :: cs =>
    if c = '[' then
      match matchAfterBracket cs with
      | some (g1, g2, rest) => (g1, g2) :: findMarkersF fuel rest
      | none => findMarkersF fuel cs
    else findMarkersF fuel cs

/-- All matches of `RE_MARKER` in the text, in textual order. -/
def findMarkers (cs : List Char) : List Marker := findMarkersF cs.length cs

/-- The three ways the script can terminate normally, one per `sys.exit`
call site. -/
inductive Outcome where
| acceptMarker
| acceptDefault
| reject
deriving DecidableEq, Repr

/-- The literal wildcard payload `'all'`. -/
def allSpec : List Char := ['a', 'l', 'l']

/-- The acceptance test the marker loop applies to a single well-formed
marker: `spec in build_environment or spec == 'all'`.  Both-groups and
bare markers never satisfy it (the former are skipped, the latter crash
the script before the test). -/
def markerMatches (env : List Char) : Marker → Bool
  | (some p, none) => containsSub p env || p == allSpec
  | (none, some p) => containsSub p env || p == allSpec
  | _ => false

/-- The marker loop.  `ok true` = `sys.exit(0)` via a commit marker,
`ok false` = fell through to the default-set loop, `error ()` = the
uncaught `TypeError` on a bare marker (both groups `None`). -/
def processMarkers (env : List Char) : List Marker → Except Unit Bool
  | [] => .ok false
  | (some _, some _) :: ms => processMarkers env ms
  | (some p, none) :: ms =>
    if containsSub p env || p == allSpec then .ok true else processMarkers env ms
  | (none, some p) :: ms =>
    if containsSub p env || p == allSpec then .ok true else processMarkers env ms
  | (none, none) :: _ => .error ()

/-- The default-set loop: accept as soon as one entry is a substring of the
build environment. -/
def processDefaults (env : List Char) : List (List Char) → Bool
  | [] => false
  | d :: ds => if containsSub d env then true else processDefaults env ds

/-- The whole decision, given the already-extracted marker list. -/
def decideFrom (env : List Char) (ms : List Marker) (ds : List (List Char)) : Except Unit Outcome :=
  match processMarkers env ms with
  | .error _ => .error ()
  | .ok true => .ok .acceptMarker
  | .ok false => if processDefaults env ds then .ok .acceptDefault else .ok .reject

/-- The script's decision procedure: `decide build_environment commit_msg
default_set`.  `error ()` models the uncaught `TypeError` raised on a bare
`[ci]`/`[test]` marker. -/
def decide (env msg : String) (ds : List String) : Except Unit Outcome :=
  decideFrom env.data (findMarkers msg.data) (ds.map String.data)

/-- Exit code at each of the three `sys.exit` call sites. -/
def exitCode : Outcome → Nat
  | .acceptMarker => 0
  | .acceptDefault => 0
  | .reject => 1

/-- Whether an outcome is an acceptance ("the job should run"). -/
def isAccept : Outcome → Bool
  | .acceptMarker => true
  | .acceptDefault => true
  | .reject => false

/-- The process exit status: `some code` when a `sys.exit(code)` is
reached, `none` when the script dies on the uncaught exception instead. -/
def scriptExit (env msg : String) (ds : List String) : Option Nat :=
  match decide env msg ds with
  | .ok o => some (exitCode o)
  | .error _ => none

/-- The hardcoded `default_set` from the script. -/
def default_set : List String := [
  "pytorch-linux-trusty-py2.7.9",
  "pytorch-linux-xenial-cuda9-cudnn7-py3",
  "pytorch-linux-xenial-py3-clang5-asan",
  "pytorch-linux-trusty-py3.6-gcc5.4",
  "caffe2-py2-mkl-ubuntu16.04",
  "caffe2-py2-cuda9.1-cudnn7-ubuntu16.04",
  "caffe2-onnx-py2-gcc5-ubuntu16.04",
  "caffe2-py2-clang7-ubuntu16.04",
  "caffe2-cmake-cuda9.0-cudnn7-ubuntu16.04",
  "manywheel 2.7mu cpu devtoolset3",
  "caffe2-py2-android-ubuntu16.04",
  "caffe2-py2-system-macos10.13",
  "pytorch-macos-10.13-cuda9.2-cudnn7-py3",
  "pytorch-linux-xenial-py3-clang5-android-ndk-r19c",
  "pytorch-short-perf-test-gpu",
  "pytorch-doc-push"]

/-! ### Structural facts about the matcher

A successful match consumes a nonempty chunk of text that contains no
opening bracket; this is what makes the left-to-right scan well behaved. -/

theorem not_mem_takeWhile_bracket {cs : List Char} :
    '[' ∉ cs.takeWhile isWordChar := by
  intro h
  have := List.mem_takeWhile_imp h
  simp [isWordChar] at this

theorem tryTail_split {cs rest : List Char} {g2 : Option (List Char)}
    (h : tryTail cs = some (g2, rest)) :
    ∃ mid, cs = mid ++ rest ∧ '[' ∉ mid := by
  match cs with
  | [] => simp [tryTail] at h
  | c :: cs' =>
    simp only [tryTail] at h
    by_cases h1 : c = ']'
    · rw [if_pos h1] at h
      simp only [Option.some.injEq, Prod.mk.injEq] at h
      obtain ⟨rfl, rfl⟩ := h
      exact ⟨[c], rfl, by simp [h1]⟩
    · rw [if_neg h1] at h
      by_cases h2 : c = ' '
      · rw [if_pos h2] at h
        by_cases h3 : (cs'.dropWhile isWordChar).head? = some ']' ∧ cs'.takeWhile isWordChar ≠ []
        · rw [if_pos h3] at h
          obtain ⟨hh, hne⟩ := h3
          simp only [Option.some.injEq, Prod.mk.injEq] at h
          obtain ⟨rfl, rfl⟩ := h
          have hsplit : cs'.takeWhile isWordChar ++ cs'.dropWhile isWordChar = cs' :=
            List.takeWhile_append_dropWhile isWordChar cs'
          cases hdw : cs'.dropWhile isWordChar with
          | nil => rw [hdw] at hh; simp at hh
          | cons d t =>
            rw [hdw] at hh
            simp only [List.head?_cons, Option.some.injEq] at hh
            subst hh
            rw [hdw] at hsplit
            refine ⟨c :: cs'.takeWhile isWordChar ++ [']'], ?_, ?_⟩
            · simp only [List.tail_cons]
              conv_lhs => rw [← hsplit]
              simp
            · intro hmem
              simp only [List.cons_append, List.mem_cons, List.mem_append,
                List.mem_singleton] at hmem
              rcases hmem with h | h | h
              · simp [h2] at h
              · exact not_mem_takeWhile_bracket h
              · exact absurd h (by decide)
        · rw [if_neg h3] at h
          exact Option.noConfusion h
      · rw [if_neg h2] at h
        exact Option.noConfusion h

theorem coreTokens_split {cs rest : List Char} (h : coreTokens cs = some rest) :
    ∃ mid, cs = mid ++ rest ∧ '[' ∉ mid := by
  unfold coreTokens at h
  split at h
  · rename_i hp
    obtain ⟨t, ht⟩ := List.isPrefixOf_iff_prefix.mp hp
    simp only [Option.some.injEq] at h
    refine ⟨['c', 'i'], ?_, by decide⟩
    rw [← h, ← ht]
    simp
  · split at h
    · rename_i hp
      obtain ⟨t, ht⟩ := List.isPrefixOf_iff_prefix.mp hp
      simp only [Option.some.injEq] at h
      refine ⟨['t', 'e', 's', 't'], ?_, by decide⟩
      rw [← h, ← ht]
      simp
    · simp at h

theorem tryCore_split {cs rest : List Char} {g2 : Option (List Char)}
    (h : tryCore cs = some (g2, rest)) :
    ∃ mid, cs = mid ++ rest ∧ '[' ∉ mid := by
  unfold tryCore at h
  cases hc : coreTokens cs with
  | none => rw [hc] at h; simp at h
  | some cs1 =>
    rw [hc] at h
    obtain ⟨mid1, hmid1, hnb1⟩ := coreTokens_split hc
    obtain ⟨mid2, hmid2, hnb2⟩ := tryTail_split h
    refine ⟨mid1 ++ mid2, ?_, ?_⟩
    · rw [hmid1, hmid2, List.append_assoc]
    · simp [hnb1, hnb2]

theorem matchAfterBracket_split {cs rest : List Char} {g1 g2 : Option (List Char)}
    (h : matchAfterBracket cs = some (g1, g2, rest)) :
    ∃ mid, cs = mid ++ rest ∧ '[' ∉ mid := by
  unfold matchAfterBracket at h
  split at h
  · -- dropWhile produced c :: afterSp
    rename_i c afterSp hd
    split at h
    · rename_i hcond
      obtain ⟨hsp, hne⟩ := hcond
      split at h
      · rename_i g2' rest' ht
        simp only [Option.some.injEq, Prod.mk.injEq] at h
        obtain ⟨rfl, rfl, rfl⟩ := h
        obtain ⟨mid2, hmid2, hnb2⟩ := tryCore_split ht
        have hsplit : cs.takeWhile isWordChar ++ cs.dropWhile isWordChar = cs :=
          List.takeWhile_append_dropWhile isWordChar cs
        rw [hd, hsp, hmid2] at hsplit
        refine ⟨cs.takeWhile isWordChar ++ ' ' :: mid2, ?_, ?_⟩
        · conv_lhs => rw [← hsplit]
          simp
        · intro hmem
          simp only [List.mem_append, List.mem_cons] at hmem
          rcases hmem with h | h | h
          · exact not_mem_takeWhile_bracket h
          · exact absurd h (by decide)
          · exact hnb2 h
      · split at h
        · rename_i g2' rest' ht2
          simp only [Option.some.injEq, Prod.mk.injEq] at h
          obtain ⟨rfl, rfl, rfl⟩ := h
          exact tryCore_split ht2
        · exact Option.noConfusion h
    · split at h
      · rename_i g2' rest' ht2
        simp only [Option.some.injEq, Prod.mk.injEq] at h
        obtain ⟨rfl, rfl, rfl⟩ := h
        exact tryCore_split ht2
      · exact Option.noConfusion h
  · -- dropWhile produced []
    split at h
    · rename_i g2' rest' ht2
      simp only [Option.some.injEq, Prod.mk.injEq] at h
      obtain ⟨rfl, rfl, rfl⟩ := h
      exact tryCore_split ht2
    · exact Option.noConfusion h

theorem matchAfterBracket_length {cs rest : List Char} {g1 g2 : Option (List Char)}
    (h : matchAfterBracket cs = some (g1, g2, rest)) :
    rest.length ≤ cs.length := by
  obtain ⟨mid, hmid, -⟩ := matchAfterBracket_split h
  rw [hmid]
  simp

/-! ### The fuel of `findMarkersF` is irrelevant once it reaches the length
of the text, so `findMarkers` satisfies the natural scanning equations. -/

theorem findMarkersF_succ_match (fuel : Nat) {cs rest : List Char} {g1 g2 : Option (List Char)}
    (h : matchAfterBracket cs = some (g1, g2, rest)) :
    findMarkersF (fuel + 1) ('[' :: cs) = (g1, g2) :: findMarkersF fuel rest := by
  simp only [findMarkersF, if_pos rfl, h, if_true]

theorem findMarkersF_succ_nomatch (fuel : Nat) {cs : List Char}
    (h : matchAfterBracket cs = none) :
    findMarkersF (fuel + 1) ('[' :: cs) = findMarkersF fuel cs := by
  simp only [findMarkersF, if_pos rfl, h, if_true]

theorem findMarkersF_succ_other (fuel : Nat) {c : Char} {cs : List Char} (h : c ≠ '[') :
    findMarkersF (fuel + 1) (c :: cs) = findMarkersF fuel cs := by
  simp only [findMarkersF, if_neg h]

theorem findMarkersF_congr :
    ∀ (f1 f2 : Nat) (cs : List Char), cs.length ≤ f1 → cs.length ≤ f2 →
      findMarkersF f1 cs = findMarkersF f2 cs := by
  intro f1
  induction f1 with
  | zero =>
    intro f2 cs h1 h2
    have hnil : cs = [] := List.eq_nil_of_length_eq_zero (Nat.le_zero.mp h1)
    subst hnil
    cases f2 <;> rfl
  | succ n ih =>
    intro f2 cs h1 h2
    cases cs with
    | nil => cases f2 <;> rfl
    | cons c cs' =>
      cases f2 with
      | zero => simp at h2
      | succ m =>
        simp only [List.length_cons] at h1 h2
        have h1' : cs'.length ≤ n := by omega
        have h2' : cs'.length ≤ m := by omega
        by_cases hc : c = '['
        · subst hc
          cases hm : matchAfterBracket cs' with
          | none =>
            rw [findMarkersF_succ_nomatch n hm, findMarkersF_succ_nomatch m hm]
            exact ih m cs' h1' h2'
          | some x =>
            obtain ⟨g1, g2, rest⟩ := x
            have hr := matchAfterBracket_length hm
            rw [findMarkersF_succ_match n hm, findMarkersF_succ_match m hm,
              ih m rest (le_trans hr h1') (le_trans hr h2')]
        · rw [findMarkersF_succ_other n hc, findMarkersF_succ_other m hc]
          exact ih m cs' h1' h2'

theorem findMarkers_nil : findMarkers [] = [] := rfl

theorem findMarkers_cons_match {cs rest : List Char} {g1 g2 : Option (List Char)}
    (h : matchAfterBracket cs = some (g1, g2, rest)) :
    findMarkers ('[' :: cs) = (g1, g2) :: findMarkers rest := by
  unfold findMarkers
  rw [show ('[' :: cs).length = cs.length + 1 from rfl, findMarkersF_succ_match cs.length h,
    findMarkersF_congr cs.length rest.length rest (matchAfterBracket_length h) (le_refl _)]

theorem findMarkers_cons_nomatch {cs : List Char} (h : matchAfterBracket cs = none) :
    findMarkers ('[' :: cs) = findMarkers cs := by
  unfold findMarkers
  rw [show ('[' :: cs).length = cs.length + 1 from rfl, findMarkersF_succ_nomatch cs.length h]

theorem findMarkers_cons_other {c : Char} {cs : List Char} (h : c ≠ '[') :
    findMarkers (c :: cs) = findMarkers cs := by
  unfold findMarkers
  rw [show (c :: cs).length = cs.length + 1 from rfl, findMarkersF_succ_other cs.length h]

theorem findMarkersF_nil_of_no_bracket :
    ∀ (fuel : Nat) (cs : List Char), '[' ∉ cs → findMarkersF fuel cs = [] := by
  intro fuel
  induction fuel with
  | zero => intro cs _; rfl
  | succ n ih =>
    intro cs h
    cases cs with
    | nil => rfl
    | cons c cs' =>
      have hc : c ≠ '[' := by
        intro hh
        exact h (by rw [← hh]; exact List.mem_cons_self _ _)
      rw [findMarkersF_succ_other n hc]
      exact ih cs' (fun hh => h (List.mem_cons_of_mem c hh))

theorem findMarkers_nil_of_no_bracket {cs : List Char} (h : '[' ∉ cs) :
    findMarkers cs = [] :=
  findMarkersF_nil_of_no_bracket cs.length cs h

/-! ### The two loops of the script -/

theorem processMarkers_eq_any (env : List Char) :
    ∀ ms : List Marker, (∀ m ∈ ms, m ≠ (none, none)) →
      processMarkers env ms = .ok (ms.any (markerMatches env)) := by
  intro ms
  induction ms with
  | nil => intro _; rfl
  | cons m ms ih =>
    intro h
    have hm := h m (List.mem_cons_self m ms)
    have hms : ∀ m' ∈ ms, m' ≠ (none, none) :=
      fun m' hm' => h m' (List.mem_cons_of_mem m hm')
    obtain ⟨g1, g2⟩ := m
    cases g1 with
    | none =>
      cases g2 with
      | none => exact absurd rfl hm
      | some p =>
        cases hb : (containsSub p env || p == allSpec) with
        | true => simp [processMarkers, List.any_cons, markerMatches, hb]
        | false => simp [processMarkers, List.any_cons, markerMatches, hb, ih hms]
    | some p =>
      cases g2 with
      | none =>
        cases hb : (containsSub p env || p == allSpec) with
        | true => simp [processMarkers, List.any_cons, markerMatches, hb]
        | false => simp [processMarkers, List.any_cons, markerMatches, hb, ih hms]
      | some q =>
        have hmm : markerMatches env (some p, some q) = false := rfl
        simp [processMarkers, List.any_cons, hmm, ih hms]

theorem processMarkers_skip (env a b : List Char) (ms2 : List Marker) :
    ∀ ms1 : List Marker,
      processMarkers env (ms1 ++ (some a, some b) :: ms2) = processMarkers env (ms1 ++ ms2) := by
  intro ms1
  induction ms1 with
  | nil => rfl
  | cons m ms ih =>
    obtain ⟨g1, g2⟩ := m
    cases g1 <;> cases g2 <;>
      simp only [List.cons_append, processMarkers, List.append_eq, ih]

theorem processDefaults_eq_any (env : List Char) :
    ∀ ds : List (List Char), processDefaults env ds = ds.any (fun d => containsSub d env) := by
  intro ds
  induction ds with
  | nil => rfl
  | cons d ds ih =>
    cases hb : containsSub d env with
    | true => simp [processDefaults, List.any_cons, hb]
    | false => simp [processDefaults, List.any_cons, hb, ih]

/-! ### Capture groups produced by the regex are never the empty string
(they come from `+`-runs). -/

theorem tryTail_g2_ne_nil {cs rest p : List Char}
    (h : tryTail cs = some (some p, rest)) : p ≠ [] := by
  match cs with
  | [] => simp [tryTail] at h
  | c :: cs' =>
    simp only [tryTail] at h
    by_cases h1 : c = ']'
    · rw [if_pos h1] at h
      simp at h
    · rw [if_neg h1] at h
      by_cases h2 : c = ' '
      · rw [if_pos h2] at h
        by_cases h3 : (cs'.dropWhile isWordChar).head? = some ']' ∧ cs'.takeWhile isWordChar ≠ []
        · rw [if_pos h3] at h
          simp only [Option.some.injEq, Prod.mk.injEq] at h
          obtain ⟨hp, -⟩ := h
          rw [← hp]
          exact h3.2
        · rw [if_neg h3] at h
          exact Option.noConfusion h
      · rw [if_neg h2] at h
        exact Option.noConfusion h

theorem tryCore_g2_ne_nil {cs rest p : List Char}
    (h : tryCore cs = some (some p, rest)) : p ≠ [] := by
  unfold tryCore at h
  cases hc : coreTokens cs with
  | none => rw [hc] at h; exact Option.noConfusion h
  | some cs1 => rw [hc] at h; exact tryTail_g2_ne_nil h

theorem matchAfterBracket_g1_ne_nil {cs rest p : List Char} {g2 : Option (List Char)}
    (h : matchAfterBracket cs = some (some p, g2, rest)) : p ≠ [] := by
  unfold matchAfterBracket at h
  split at h
  · rename_i c afterSp hd
    split at h
    · rename_i hcond
      split at h
      · rename_i g2' rest' ht
        simp only [Option.some.injEq, Prod.mk.injEq] at h
        obtain ⟨hp, -, -⟩ := h
        rw [← hp]
        exact hcond.2
      · split at h
        · simp at h
        · exact Option.noConfusion h
    · split at h
      · simp at h
      · exact Option.noConfusion h
  · split at h
    · simp at h
    · exact Option.noConfusion h

theorem matchAfterBracket_g2_ne_nil {cs rest p : List Char} {g1 : Option (List Char)}
    (h : matchAfterBracket cs = some (g1, some p, rest)) : p ≠ [] := by
  unfold matchAfterBracket at h
  split at h
  · rename_i c afterSp hd
    split at h
    · split at h
      · rename_i g2' rest' ht
        simp only [Option.some.injEq, Prod.mk.injEq] at h
        obtain ⟨-, hg2, hrest⟩ := h
        rw [hg2, hrest] at ht
        exact tryCore_g2_ne_nil ht
      · split at h
        · rename_i g2' rest' ht2
          simp only [Option.some.injEq, Prod.mk.injEq] at h
          obtain ⟨-, hg2, hrest⟩ := h
          rw [hg2, hrest] at ht2
          exact tryCore_g2_ne_nil ht2
        · exact Option.noConfusion h
    · split at h
      · rename_i g2' rest' ht2
        simp only [Option.some.injEq, Prod.mk.injEq] at h
        obtain ⟨-, hg2, hrest⟩ := h
        rw [hg2, hrest] at ht2
        exact tryCore_g2_ne_nil ht2
      · exact Option.noConfusion h
  · split at h
    · rename_i g2' rest' ht2
      simp only [Option.some.injEq, Prod.mk.injEq] at h
      obtain ⟨-, hg2, hrest⟩ := h
      rw [hg2, hrest] at ht2
      exact tryCore_g2_ne_nil ht2
    · exact Option.noConfusion h

theorem findMarkersF_groups :
    ∀ (fuel : Nat) (cs : List Char) (m : Marker), m ∈ findMarkersF fuel cs →
      (∀ p, m.1 = some p → p ≠ []) ∧ (∀ p, m.2 = some p → p ≠ []) := by
  intro fuel
  induction fuel with
  | zero => intro cs m h; simp [findMarkersF] at h
  | succ n ih =>
    intro cs m h
    cases cs with
    | nil => simp [findMarkersF] at h
    | cons c cs' =>
      by_cases hc : c = '['
      · subst hc
        cases hm : matchAfterBracket cs' with
        | none =>
          rw [findMarkersF_succ_nomatch n hm] at h
          exact ih cs' m h
        | some x =>
          obtain ⟨g1, g2, rest⟩ := x
          rw [findMarkersF_succ_match n hm] at h
          rcases List.mem_cons.mp h with h | h
          · subst h
            constructor
            · intro p hp
              have hp' : g1 = some p := hp
              rw [hp'] at hm
              exact matchAfterBracket_g1_ne_nil hm
            · intro p hp
              have hp' : g2 = some p := hp
              rw [hp'] at hm
              exact matchAfterBracket_g2_ne_nil hm
          · exact ih rest m h
      · rw [findMarkersF_succ_other n hc] at h
        exact ih cs' m h

theorem findMarkers_groups {cs : List Char} {m : Marker} (h : m ∈ findMarkers cs) :
    (∀ p, m.1 = some p → p ≠ []) ∧ (∀ p, m.2 = some p → p ≠ []) :=
  findMarkersF_groups cs.length cs m h

/-! ### Reachability: an occurrence of a marker literal in the text is
always found by the scan.  A match never straddles a later `[`, because the
text a match consumes contains no `[` after its leading bracket. -/

theorem findMarkersF_mem_of_occurs (occTail : List Char) (g1 g2 : Option (List Char))
    (hocc : ∀ r : List Char, matchAfterBracket (occTail ++ r) = some (g1, g2, r)) :
    ∀ (fuel : Nat) (cs pre post : List Char), cs.length ≤ fuel →
      cs = (pre ++ ('[' :: occTail)) ++ post → (g1, g2) ∈ findMarkersF fuel cs := by
  intro fuel
  induction fuel with
  | zero =>
    intro cs pre post hlen hcs
    subst hcs
    simp [List.length_append] at hlen
  | succ n ih =>
    intro cs pre post hlen hcs
    cases pre with
    | nil =>
      subst hcs
      rw [List.nil_append, List.cons_append, findMarkersF_succ_match n (hocc post)]
      exact List.mem_cons_self _ _
    | cons c pre' =>
      subst hcs
      rw [List.cons_append, List.cons_append]
      have hlen' : ((pre' ++ ('[' :: occTail)) ++ post).length ≤ n := by
        simp only [List.length_cons, List.length_append] at hlen ⊢
        omega
      by_cases hc : c = '['
      · subst hc
        cases hm : matchAfterBracket ((pre' ++ ('[' :: occTail)) ++ post) with
        | none =>
          rw [findMarkersF_succ_nomatch n hm]
          exact ih _ pre' post hlen' rfl
        | some x =>
          obtain ⟨a, b, rest⟩ := x
          rw [findMarkersF_succ_match n hm]
          obtain ⟨mid, hmid, hmidnb⟩ := matchAfterBracket_split hm
          rw [List.append_assoc] at hmid
          rcases List.append_eq_append_iff.mp hmid with ⟨a', ha1, ha2⟩ | ⟨c', hc1, hc2⟩
          · cases a' with
            | nil =>
              simp only [List.nil_append] at ha2
              refine List.mem_cons_of_mem _ (ih rest [] post ?_ ?_)
              · rw [← ha2]
                simp only [List.length_append, List.length_cons] at hlen' ⊢
                omega
              · rw [← ha2]
                simp
            | cons x xs =>
              exfalso
              apply hmidnb
              rw [ha1]
              apply List.mem_append_right
              have hx : x = '[' := by
                have hh := congrArg List.head? ha2
                simp at hh
                exact hh.symm
              rw [← hx]
              exact List.mem_cons_self _ _
          · subst hc2
            refine List.mem_cons_of_mem _ (ih _ c' post ?_ ?_)
            · have hl := congrArg List.length hc1
              simp only [List.length_append, List.length_cons] at hl hlen' ⊢
              omega
            · rw [List.append_assoc]
      · rw [findMarkersF_succ_other n hc]
        exact ih _ pre' post hlen' rfl

theorem findMarkers_mem_of_occurs (occTail : List Char) (g1 g2 : Option (List Char))
    (hocc : ∀ r : List Char, matchAfterBracket (occTail ++ r) = some (g1, g2, r))
    {cs pre post : List Char}
    (hcs : cs = (pre ++ ('[' :: occTail)) ++ post) :
    (g1, g2) ∈ findMarkers cs :=
  findMarkersF_mem_of_occurs occTail g1 g2 hocc cs.length cs pre post (le_refl _) hcs

/-- Wherever the literal text `[all ci]` starts, the matcher matches
exactly it, capturing `all` in the first group. -/
theorem matchAfterBracket_allCi (r : List Char) :
    matchAfterBracket ("all ci]".data ++ r) = some (some "all".data, none, r) := rfl

/-- Wherever the literal text `[ci foo]` starts, the matcher matches
exactly it, capturing `foo` in the second group. -/
theorem matchAfterBracket_ciFoo (r : List Char) :
    matchAfterBracket ("ci foo]".data ++ r) = some (none, some "foo".data, r) := rfl

/-! ### Bridging lemmas for the decision -/

theorem containsSub_nil {p : List Char} (h : p ≠ []) : containsSub p [] = false := by
  cases p with
  | nil => exact absurd rfl h
  | cons x xs => rfl

theorem processDefaults_iff (env : List Char) (ds : List String) :
    processDefaults env (ds.map String.data) = true ↔
      ∃ d ∈ ds, containsSub d.data env = true := by
  rw [processDefaults_eq_any, List.any_eq_true]
  constructor
  · rintro ⟨x, hx, hc⟩
    obtain ⟨d, hd, rfl⟩ := List.mem_map.mp hx
    exact ⟨d, hd, hc⟩
  · rintro ⟨d, hd, hc⟩
    exact ⟨d.data, List.mem_map.mpr ⟨d, hd, rfl⟩, hc⟩

/-- On a message without bare markers the script never raises: the
decision is marker acceptance if some marker matches, else default-set
acceptance if some default entry matches, else rejection. -/
theorem decide_eq_of_noBare (env msg : String) (ds : List String)
    (h : ∀ m ∈ findMarkers msg.data, m ≠ (none, none)) :
    decide env msg ds =
      .ok (if (findMarkers msg.data).any (markerMatches env.data) then Outcome.acceptMarker
        else if processDefaults env.data (ds.map String.data) then Outcome.acceptDefault
        else Outcome.reject) := by
  unfold decide decideFrom
  rw [processMarkers_eq_any env.data (findMarkers msg.data) h]
  cases hany : (findMarkers msg.data).any (markerMatches env.data) with
  | true => simp
  | false =>
    cases hd : processDefaults env.data (ds.map String.data) with
    | true => simp [hd]
    | false => simp [hd]

/-- Against the empty build environment, a marker whose capture groups are
non-empty matches exactly when its payload is the literal `all`. -/
theorem markerMatches_empty_env {m : Marker}
    (hg1 : ∀ p, m.1 = some p → p ≠ []) (hg2 : ∀ p, m.2 = some p → p ≠ []) :
    (markerMatches [] m = true ↔
      (m = (some "all".data, none) ∨ m = (none, some "all".data))) := by
  have hall : allSpec = "all".data := rfl
  obtain ⟨g1, g2⟩ := m
  cases g1 with
  | none =>
    cases g2 with
    | none => simp [markerMatches]
    | some p =>
      have hp : p ≠ [] := hg2 p rfl
      simp [markerMatches, containsSub_nil hp, hall]
  | some p =>
    cases g2 with
    | none =>
      have hp : p ≠ [] := hg1 p rfl
      simp [markerMatches, containsSub_nil hp, hall]
    | some q =>
      have hmm : markerMatches [] (some p, some q) = false := rfl
      simp [hmm]

/-! ### Case-sensitivity toolkit

The token alternative of the regex is the two lowercase literals.  A run of
word characters that is neither literal can never start the token part of a
match, whatever follows, and a bracketed body built from such runs never
matches at all. -/

theorem takeWhile_append_cons {w : List Char} {y : Char} {X : List Char}
    (hw : ∀ x ∈ w, isWordChar x = true) (hy : isWordChar y = false) :
    ((w ++ (y :: X)).takeWhile isWordChar) = w := by
  induction w with
  | nil => simp [List.takeWhile_cons, hy]
  | cons a w' ih =>
    have ha : isWordChar a = true := hw a (List.mem_cons_self a w')
    simp [List.takeWhile_cons, ha, ih (fun x hx => hw x (List.mem_cons_of_mem a hx))]

theorem dropWhile_append_cons {w : List Char} {y : Char} {X : List Char}
    (hw : ∀ x ∈ w, isWordChar x = true) (hy : isWordChar y = false) :
    ((w ++ (y :: X)).dropWhile isWordChar) = y :: X := by
  induction w with
  | nil => simp [List.dropWhile_cons, hy]
  | cons a w' ih =>
    have ha : isWordChar a = true := hw a (List.mem_cons_self a w')
    simp [List.dropWhile_cons, ha, ih (fun x hx => hw x (List.mem_cons_of_mem a hx))]

/-- A character whose lowercasing is a word character is itself a word
character (the three excluded characters are fixed by `Char.toLower`). -/
theorem isWordChar_of_toLower {a b : Char} (h : Char.toLower a = b)
    (hb : b ≠ ' ' ∧ b ≠ '[' ∧ b ≠ ']') : isWordChar a = true := by
  by_cases h1 : a = ' '
  · subst h1
    rw [show Char.toLower ' ' = ' ' from rfl] at h
    exact absurd h.symm hb.1
  · by_cases h2 : a = '['
    · subst h2
      rw [show Char.toLower '[' = '[' from rfl] at h
      exact absurd h.symm hb.2.1
    · by_cases h3 : a = ']'
      · subst h3
        rw [show Char.toLower ']' = ']' from rfl] at h
        exact absurd h.symm hb.2.2
      · simp [isWordChar, h1, h2, h3]

/-- Any casing variant of a bracket-free, space-free word consists of word
characters. -/
theorem wordRun_of_map_toLower {tok lit : List Char}
    (h : tok.map Char.toLower = lit)
    (hlit : ∀ c ∈ lit, c ≠ ' ' ∧ c ≠ '[' ∧ c ≠ ']') :
    ∀ x ∈ tok, isWordChar x = true := by
  intro x hx
  have hmem : Char.toLower x ∈ lit := h ▸ List.mem_map_of_mem Char.toLower hx
  exact isWordChar_of_toLower rfl (hlit _ hmem)

theorem wordRun_not_bracket_mem {w : List Char}
    (hw : ∀ x ∈ w, isWordChar x = true) : '[' ∉ w :=
  fun hx => absurd (hw _ hx) (by decide)

/-- A word-run other than the two lowercase literals, followed by any
non-word character, can never satisfy the token-and-tail part of the
pattern. -/
theorem tryCore_wordRun {p : List Char} {c : Char} {r : List Char}
    (hp : ∀ x ∈ p, isWordChar x = true)
    (h1 : p ≠ "ci".data) (h2 : p ≠ "test".data)
    (hc : isWordChar c = false) :
    tryCore (p ++ (c :: r)) = none := by
  cases hco : coreTokens (p ++ (c :: r)) with
  | none => simp [tryCore, hco]
  | some rest =>
    have htc : tryCore (p ++ (c :: r)) = tryTail rest := by simp [tryCore, hco]
    rw [htc]
    unfold coreTokens at hco
    split at hco
    · rename_i hpre
      simp only [Option.some.injEq] at hco
      obtain ⟨t, ht⟩ := List.isPrefixOf_iff_prefix.mp hpre
      cases p with
      | nil =>
        simp only [List.nil_append] at ht
        injection ht with h' _
        rw [← h'] at hc
        exact absurd hc (by decide)
      | cons a p1 =>
        simp only [List.cons_append, List.cons.injEq] at ht
        obtain ⟨ha, ht⟩ := ht
        cases p1 with
        | nil =>
          simp only [List.nil_append] at ht
          injection ht with h' _
          rw [← h'] at hc
          exact absurd hc (by decide)
        | cons b p2 =>
          simp only [List.cons_append, List.cons.injEq] at ht
          obtain ⟨hb, -⟩ := ht
          subst ha hb
          have hrest : rest = p2 ++ (c :: r) := by
            rw [← hco]
            simp
          rw [hrest]
          cases p2 with
          | nil => exact absurd rfl h1
          | cons y p3 =>
            have hy : isWordChar y = true := hp y (by simp)
            have hy1 : y ≠ ']' := fun hh => absurd (hh ▸ hy) (by decide)
            have hy2 : y ≠ ' ' := fun hh => absurd (hh ▸ hy) (by decide)
            simp only [List.cons_append, tryTail, if_neg hy1, if_neg hy2]
    · split at hco
      · rename_i hpre
        simp only [Option.some.injEq] at hco
        obtain ⟨t, ht⟩ := List.isPrefixOf_iff_prefix.mp hpre
        cases p with
        | nil =>
          simp only [List.nil_append] at ht
          injection ht with h' _
          rw [← h'] at hc
          exact absurd hc (by decide)
        | cons a p1 =>
          simp only [List.cons_append, List.cons.injEq] at ht
          obtain ⟨ha, ht⟩ := ht
          cases p1 with
          | nil =>
            simp only [List.nil_append] at ht
            injection ht with h' _
            rw [← h'] at hc
            exact absurd hc (by decide)
          | cons b p2 =>
            simp only [List.cons_append, List.cons.injEq] at ht
            obtain ⟨hb, ht⟩ := ht
            cases p2 with
            | nil =>
              simp only [List.nil_append] at ht
              injection ht with h' _
              rw [← h'] at hc
              exact absurd hc (by decide)
            | cons e p3 =>
              simp only [List.cons_append, List.cons.injEq] at ht
              obtain ⟨he, ht⟩ := ht
              cases p3 with
              | nil =>
                simp only [List.nil_append] at ht
                injection ht with h' _
                rw [← h'] at hc
                exact absurd hc (by decide)
              | cons f p4 =>
                simp only [List.cons_append, List.cons.injEq] at ht
                obtain ⟨hf, -⟩ := ht
                subst ha hb he hf
                have hrest : rest = p4 ++ (c :: r) := by
                  rw [← hco]
                  simp
                rw [hrest]
                cases p4 with
                | nil => exact absurd rfl h2
                | cons y p5 =>
                  have hy : isWordChar y = true := hp y (by simp)
                  have hy1 : y ≠ ']' := fun hh => absurd (hh ▸ hy) (by decide)
                  have hy2 : y ≠ ' ' := fun hh => absurd (hh ▸ hy) (by decide)
                  simp only [List.cons_append, tryTail, if_neg hy1, if_neg hy2]
      · exact Option.noConfusion hco

/-- A bracket body of the shape `run ++ ' ' :: rest` fails to match when
neither the group-1 parse (token part at `rest`) nor the group-absent
parse (token part at the whole body) can succeed. -/
theorem matchAfterBracket_wordRun_space {w X : List Char}
    (hw : ∀ x ∈ w, isWordChar x = true)
    (h1 : tryCore X = none)
    (h2 : tryCore (w ++ (' ' :: X)) = none) :
    matchAfterBracket (w ++ (' ' :: X)) = none := by
  have htw : ((w ++ (' ' :: X)).takeWhile isWordChar) = w :=
    takeWhile_append_cons hw (by decide)
  have hdw : ((w ++ (' ' :: X)).dropWhile isWordChar) = ' ' :: X :=
    dropWhile_append_cons hw (by decide)
  unfold matchAfterBracket
  simp only [hdw, htw]
  by_cases hwe : w = []
  · rw [if_neg (fun hcon => hcon.2 hwe)]
    simp [h2]
  · rw [if_pos ⟨by trivial, hwe⟩]
    simp [h1, h2]

/-- A bracket body of the shape `run ++ ']' :: rest` fails to match when
the group-absent parse cannot succeed (a closing bracket right after the
run rules out the group-1 parse). -/
theorem matchAfterBracket_wordRun_bracket {w X : List Char}
    (hw : ∀ x ∈ w, isWordChar x = true)
    (h2 : tryCore (w ++ (']' :: X)) = none) :
    matchAfterBracket (w ++ (']' :: X)) = none := by
  have hdw : ((w ++ (']' :: X)).dropWhile isWordChar) = ']' :: X :=
    dropWhile_append_cons hw (by decide)
  unfold matchAfterBracket
  simp only [hdw]
  rw [if_neg (fun hcon => absurd hcon.1 (by decide))]
  simp [h2]

/-! ### The claims -/

/-- Claim C1 (amended): for every build environment, default set, and
commit message in which every marker match populates at least one capture
group, `decide` accepts exactly when some well-formed marker matches
(payload a substring of the environment, or the literal `all`) or some
default-set entry is a substring of the environment; when neither holds it
rejects.  Without the no-bare-marker proviso the claim fails, because a
bare `[ci]`/`[test]` match makes the script raise instead of deciding. -/
theorem claim1_accept_iff (env msg : String) (ds : List String)
    (h : ∀ m ∈ findMarkers msg.data, m ≠ (none, none)) :
    ((∃ o, decide env msg ds = Except.ok o ∧ isAccept o = true) ↔
      ((∃ m ∈ findMarkers msg.data, markerMatches env.data m = true) ∨
        (∃ d ∈ ds, containsSub d.data env.data = true))) ∧
    (¬((∃ m ∈ findMarkers msg.data, markerMatches env.data m = true) ∨
        (∃ d ∈ ds, containsSub d.data env.data = true)) →
      decide env msg ds = Except.ok Outcome.reject) := by
  rw [decide_eq_of_noBare env msg ds h]
  cases hA : (findMarkers msg.data).any (markerMatches env.data) with
  | true =>
    refine ⟨⟨fun _ => Or.inl (List.any_eq_true.mp hA), fun _ => ⟨Outcome.acceptMarker, by simp, rfl⟩⟩, ?_⟩
    intro hn
    exact absurd (Or.inl (List.any_eq_true.mp hA)) hn
  | false =>
    have hnA : ¬∃ m ∈ findMarkers msg.data, markerMatches env.data m = true := by
      intro hex
      rw [List.any_eq_true.mpr hex] at hA
      exact Bool.noConfusion hA
    cases hB : processDefaults env.data (ds.map String.data) with
    | true =>
      refine ⟨⟨fun _ => Or.inr ((processDefaults_iff env.data ds).mp hB), ?_⟩, ?_⟩
      · intro _
        exact ⟨Outcome.acceptDefault, by simp, rfl⟩
      · intro hn
        exact absurd (Or.inr ((processDefaults_iff env.data ds).mp hB)) hn
    | false =>
      have hnB : ¬∃ d ∈ ds, containsSub d.data env.data = true := by
        intro hex
        rw [(processDefaults_iff env.data ds).mpr hex] at hB
        exact Bool.noConfusion hB
      refine ⟨⟨?_, ?_⟩, fun _ => by simp⟩
      · rintro ⟨o, ho, hacc⟩
        simp only [Except.ok.injEq] at ho
        rw [← ho] at hacc
        simp [isAccept] at hacc
      · rintro (hex | hex)
        · exact absurd hex hnA
        · exact absurd hex hnB

/-- Witness for C1 at a concrete input: `[ci foo]` against environment
`pytorch-foo` is accepted via the marker clause of the disjunction. -/
theorem claim1_witness :
    ∃ o, decide "pytorch-foo" "[ci foo]" [] = Except.ok o ∧ isAccept o = true :=
  (claim1_accept_iff "pytorch-foo" "[ci foo]" [] (by decide)).1.mpr
    (Or.inl ⟨(none, some "foo".data), by decide, by decide⟩)

/-- Claim C1 counterexample to the literal statement: with environment
`y`, default set `["y"]` (whose entry is a substring of the environment,
so the claim demands acceptance), the message `[test]` makes `decide`
raise instead of accepting. -/
theorem claim1_counterexample :
    decide "y" "[test]" ["y"] = Except.error () ∧
      containsSub "y".data "y".data = true :=
  ⟨rfl, rfl⟩

/-- Claim C2 (amended): the decision procedure completes normally on every
commit message whose marker matches each populate at least one capture
group.  The literal claim — that no commit message at all can cause a
failure — is false: a bare marker such as `[ci]` leaves both groups
unpopulated, `spec` becomes `None`, and `None in build_environment`
raises an uncaught `TypeError`. -/
theorem claim2_completes (env msg : String) (ds : List String)
    (h : ∀ m ∈ findMarkers msg.data, m ≠ (none, none)) :
    ∃ o, decide env msg ds = Except.ok o := by
  rw [decide_eq_of_noBare env msg ds h]
  exact ⟨_, rfl⟩

/-- Witness for C2 at a concrete input. -/
theorem claim2_witness : ∃ o, decide "x" "fix bug [ci foo]" [] = Except.ok o :=
  claim2_completes "x" "fix bug [ci foo]" [] (by decide)

/-- Claim C2 counterexample: the bare marker `[ci]` is matched with both
groups unpopulated and the script raises (modelled as `Except.error`). -/
theorem claim2_counterexample :
    decide "x" "[ci]" [] = Except.error () ∧
      findMarkers "[ci]".data = [(none, none)] :=
  ⟨rfl, by decide⟩

/-- Claim C3 (amended): a match with both capture groups populated is
skipped: the decision equals the decision computed from the match sequence
with that match removed, so later valid markers and the default set still
apply.  The stronger literal reading — the decision is the same as if the
marker's *text* were deleted from the message — is false
(`claim3_counterexample`): deleting the text can make the surrounding
characters parse as a new marker. -/
theorem claim3_skip (env msg : String) (ds : List String) (ms1 ms2 : List Marker)
    (a b : List Char)
    (h : findMarkers msg.data = ms1 ++ (some a, some b) :: ms2) :
    decide env msg ds = decideFrom env.data (ms1 ++ ms2) (ds.map String.data) := by
  unfold decide decideFrom
  rw [h, processMarkers_skip env.data a b ms2 ms1]

/-- Witness for C3 at a concrete input: the malformed `[foo ci bar]` is
dropped and the later `[all ci]` still accepts. -/
theorem claim3_witness :
    decide "x" "[foo ci bar][all ci]" [] =
      decideFrom "x".data [(some "all".data, none)] [] ∧
    decide "x" "[foo ci bar][all ci]" [] = Except.ok Outcome.acceptMarker :=
  ⟨claim3_skip "x" "[foo ci bar][all ci]" [] [] [(some "all".data, none)]
    "foo".data "bar".data (by decide), rfl⟩

/-- Claim C3 counterexample to the literal "as if that marker text were
absent" reading: in `[al[foo ci bar]l ci]` the only match is the malformed
`[foo ci bar]` and the decision is reject, but deleting that text yields
`[all ci]`, which is accepted. -/
theorem claim3_counterexample :
    findMarkers "[al[foo ci bar]l ci]".data = [(some "foo".data, some "bar".data)] ∧
    decide "x" "[al[foo ci bar]l ci]" [] = Except.ok Outcome.reject ∧
    "[al[foo ci bar]l ci]" = "[al" ++ "[foo ci bar]" ++ "l ci]" ∧
    decide "x" ("[al" ++ "l ci]") [] = Except.ok Outcome.acceptMarker :=
  ⟨by decide, rfl, by decide, rfl⟩

/-- Claim C4 (amended): markers can never veto: when some default-set
entry is a substring of the build environment, `decide` never rejects, and
on every message without bare markers it accepts.  The literal claim
("accepts for every commit message") is false: a bare `[ci]` marker
crashes the script before the default set is consulted. -/
theorem claim4_no_veto (env : String) (ds : List String)
    (hd : ∃ d ∈ ds, containsSub d.data env.data = true) :
    (∀ msg : String, decide env msg ds ≠ Except.ok Outcome.reject) ∧
    (∀ msg : String, (∀ m ∈ findMarkers msg.data, m ≠ (none, none)) →
      ∃ o, decide env msg ds = Except.ok o ∧ isAccept o = true) := by
  have hB : processDefaults env.data (ds.map String.data) = true :=
    (processDefaults_iff env.data ds).mpr hd
  constructor
  · intro msg
    unfold decide decideFrom
    cases hp : processMarkers env.data (findMarkers msg.data) with
    | error e => simp
    | ok b =>
      cases b with
      | true => simp
      | false => simp [hB]
  · intro msg h
    rw [decide_eq_of_noBare env msg ds h]
    cases hA : (findMarkers msg.data).any (markerMatches env.data) with
    | true => exact ⟨Outcome.acceptMarker, by simp, rfl⟩
    | false => exact ⟨Outcome.acceptDefault, by simp [hB], rfl⟩

/-- Witness for C4 at a concrete input. -/
theorem claim4_witness :
    decide "x" "hello world" ["x"] ≠ Except.ok Outcome.reject :=
  (claim4_no_veto "x" ["x"] ⟨"x", by decide, rfl⟩).1 "hello world"

/-- Claim C4 counterexample to the literal statement: the default entry
`x` is a substring of environment `x`, yet the message `[ci]` does not
produce an acceptance — the script raises. -/
theorem claim4_counterexample :
    decide "x" "[ci]" ["x"] = Except.error () ∧
      containsSub "x".data "x".data = true :=
  ⟨rfl, rfl⟩

/-- Claim C5: if the commit message contains no marker matches and some
default-set entry is a substring of the build environment, the decision is
acceptance with the default-set reason (not the commit-marker reason). -/
theorem claim5_default_accept (env msg : String) (ds : List String)
    (h1 : findMarkers msg.data = [])
    (h2 : ∃ d ∈ ds, containsSub d.data env.data = true) :
    decide env msg ds = Except.ok Outcome.acceptDefault := by
  have hB : processDefaults env.data (ds.map String.data) = true :=
    (processDefaults_iff env.data ds).mpr h2
  unfold decide decideFrom
  rw [h1]
  simp [processMarkers, hB]

/-- Witness for C5: the spec's scenario, against the script's actual
hard-coded default set. -/
theorem claim5_witness :
    decide "pytorch-linux-xenial-cuda9-cudnn7-py3" "fix bug" default_set =
      Except.ok Outcome.acceptDefault :=
  claim5_default_accept "pytorch-linux-xenial-cuda9-cudnn7-py3" "fix bug" default_set
    (by decide) ⟨"pytorch-linux-xenial-cuda9-cudnn7-py3", by decide, by decide⟩

/-- Claim C6 (amended): any commit message containing the literal text
`[all ci]`, in which every marker match populates a capture group, is
accepted via commit marker, for every build environment and default set
(the payload `all` is a wildcard).  The literal claim over all messages is
false: a bare marker occurring before `[all ci]` crashes the script
(`claim6_counterexample`). -/
theorem claim6_all_marker (env msg : String) (ds : List String) (pre post : List Char)
    (hsub : msg.data = (pre ++ ('[' :: "all ci]".data)) ++ post)
    (h : ∀ m ∈ findMarkers msg.data, m ≠ (none, none)) :
    decide env msg ds = Except.ok Outcome.acceptMarker := by
  have hmem : (some "all".data, (none : Option (List Char))) ∈ findMarkers msg.data :=
    findMarkers_mem_of_occurs "all ci]".data (some "all".data) none
      matchAfterBracket_allCi hsub
  have hbeq : ("all".data == allSpec) = true := by decide
  have hmm : markerMatches env.data (some "all".data, none) = true := by
    show (containsSub "all".data env.data || ("all".data == allSpec)) = true
    rw [hbeq, Bool.or_true]
  have hA : (findMarkers msg.data).any (markerMatches env.data) = true :=
    List.any_eq_true.mpr ⟨_, hmem, hmm⟩
  rw [decide_eq_of_noBare env msg ds h, hA]
  rfl

/-- Witness for C6 at a concrete input: `[all ci]` embedded in a larger
message accepts an arbitrary environment against a non-matching default
set. -/
theorem claim6_witness :
    decide "anything" "before [all ci] after" ["d"] = Except.ok Outcome.acceptMarker :=
  claim6_all_marker "anything" "before [all ci] after" ["d"]
    "before ".data " after".data (by decide) (by decide)

/-- Claim C6 counterexample to the literal statement: the message
`[ci] [all ci]` contains `[all ci]`, yet the script raises on the earlier
bare `[ci]` before reaching it. -/
theorem claim6_counterexample :
    decide "x" "[ci] [all ci]" [] = Except.error () ∧
      "[ci] [all ci]" = "[ci] " ++ "[all ci]" :=
  ⟨rfl, by decide⟩

/-- Claim C7 (amended): marker payloads match by substring containment,
not equality: any message containing the literal text `[ci foo]`, in which
every marker match populates a capture group, is accepted for build
environment `pytorch-foo-bar`, whatever the default set.  The literal
claim over all messages is false: a bare marker occurring before
`[ci foo]` crashes the script (`claim7_counterexample`). -/
theorem claim7_substring (msg : String) (ds : List String) (pre post : List Char)
    (hsub : msg.data = (pre ++ ('[' :: "ci foo]".data)) ++ post)
    (h : ∀ m ∈ findMarkers msg.data, m ≠ (none, none)) :
    decide "pytorch-foo-bar" msg ds = Except.ok Outcome.acceptMarker := by
  have hmem : ((none : Option (List Char)), some "foo".data) ∈ findMarkers msg.data :=
    findMarkers_mem_of_occurs "ci foo]".data none (some "foo".data)
      matchAfterBracket_ciFoo hsub
  have hmm : markerMatches ("pytorch-foo-bar" : String).data (none, some "foo".data) = true := by
    decide
  have hA : (findMarkers msg.data).any (markerMatches ("pytorch-foo-bar" : String).data) = true :=
    List.any_eq_true.mpr ⟨_, hmem, hmm⟩
  rw [decide_eq_of_noBare "pytorch-foo-bar" msg ds h, hA]
  rfl

/-- Witness for C7 at a concrete input, with a default set whose contents
are irrelevant. -/
theorem claim7_witness :
    decide "pytorch-foo-bar" "[ci foo]" ["unrelated"] = Except.ok Outcome.acceptMarker :=
  claim7_substring "[ci foo]" ["unrelated"] [] [] (by decide) (by decide)

/-- Claim C7 counterexample to the literal statement: the message
`[test] [ci foo]` contains `[ci foo]` (and the default set even matches
the environment), yet the script raises on the earlier bare `[test]`. -/
theorem claim7_counterexample :
    decide "pytorch-foo-bar" "[test] [ci foo]" ["pytorch"] = Except.error () ∧
      "[test] [ci foo]" = "[test] " ++ "[ci foo]" ∧
      containsSub "pytorch".data "pytorch-foo-bar".data = true :=
  ⟨rfl, by decide, rfl⟩

/-- Claim C8: whenever the script reaches a `sys.exit` (i.e. the decision
procedure returns an outcome), the exit status encodes the decision: 0
exactly when accepting, 1 exactly when rejecting. -/
theorem claim8_exit_code (env msg : String) (ds : List String) (o : Outcome)
    (h : decide env msg ds = Except.ok o) :
    (scriptExit env msg ds = some 0 ↔ isAccept o = true) ∧
    (scriptExit env msg ds = some 1 ↔ isAccept o = false) := by
  unfold scriptExit
  rw [h]
  cases o <;> simp [exitCode, isAccept]

/-- Witness for C8 at a concrete input: a rejection exits with code 1. -/
theorem claim8_witness :
    (scriptExit "x" "hello" [] = some 0 ↔ isAccept Outcome.reject = true) ∧
    (scriptExit "x" "hello" [] = some 1 ↔ isAccept Outcome.reject = false) :=
  claim8_exit_code "x" "hello" [] Outcome.reject rfl

/-- Claim C9: marker recognition is case-sensitive — the pattern only
matches the lowercase literals `ci` and `test`.  For every casing variant
`tok` of `ci` or `test` other than the lowercase literal itself (any `tok`
with `tok.map Char.toLower` equal to the literal), and every word-run
payload `p`, the bracketed annotations `[tok]`, `[tok p]` and `[p tok]`
produce no regex matches at all and decide exactly like the empty message
(for every build environment and default set), so the annotation by itself
never causes acceptance.  The payload must not itself be the lowercase
literal `ci`/`test`: in that one overlap (e.g. `[CI ci]`) the bracket *is*
a well-formed lowercase marker — it is the lowercase token that matches,
not the other casing — so the exclusion is forced by the code. -/
theorem claim9_case_sensitive (env : String) (ds : List String) (tok p : List Char)
    (htok : tok.map Char.toLower = "ci".data ∨ tok.map Char.toLower = "test".data)
    (hne1 : tok ≠ "ci".data) (hne2 : tok ≠ "test".data)
    (hp : ∀ x ∈ p, isWordChar x = true)
    (hp1 : p ≠ "ci".data) (hp2 : p ≠ "test".data) :
    (findMarkers ('[' :: (tok ++ (']' :: []))) = [] ∧
     findMarkers ('[' :: (tok ++ (' ' :: (p ++ (']' :: []))))) = [] ∧
     findMarkers ('[' :: (p ++ (' ' :: (tok ++ (']' :: []))))) = []) ∧
    (decide env (String.mk ('[' :: (tok ++ (']' :: [])))) ds = decide env "" ds ∧
     decide env (String.mk ('[' :: (tok ++ (' ' :: (p ++ (']' :: [])))))) ds = decide env "" ds ∧
     decide env (String.mk ('[' :: (p ++ (' ' :: (tok ++ (']' :: [])))))) ds = decide env "" ds) := by
  have htokw : ∀ x ∈ tok, isWordChar x = true := by
    rcases htok with h | h
    · exact wordRun_of_map_toLower h (by decide)
    · exact wordRun_of_map_toLower h (by decide)
  have hG1 : tryCore (tok ++ (']' :: [])) = none :=
    tryCore_wordRun htokw hne1 hne2 (by decide)
  have hG2 : tryCore (p ++ (']' :: [])) = none :=
    tryCore_wordRun hp hp1 hp2 (by decide)
  have hG3 : tryCore (tok ++ (' ' :: (p ++ (']' :: [])))) = none :=
    tryCore_wordRun htokw hne1 hne2 (by decide)
  have hG4 : tryCore (p ++ (' ' :: (tok ++ (']' :: [])))) = none :=
    tryCore_wordRun hp hp1 hp2 (by decide)
  have hm1 : matchAfterBracket (tok ++ (']' :: [])) = none :=
    matchAfterBracket_wordRun_bracket htokw hG1
  have hm2 : matchAfterBracket (tok ++ (' ' :: (p ++ (']' :: [])))) = none :=
    matchAfterBracket_wordRun_space htokw hG2 hG3
  have hm3 : matchAfterBracket (p ++ (' ' :: (tok ++ (']' :: [])))) = none :=
    matchAfterBracket_wordRun_space hp hG1 hG4
  have hb1 : '[' ∉ (tok ++ (']' :: [])) := by
    intro hmem
    rcases List.mem_append.mp hmem with h | h
    · exact wordRun_not_bracket_mem htokw h
    · simp at h
  have hb2 : '[' ∉ (tok ++ (' ' :: (p ++ (']' :: [])))) := by
    intro hmem
    rcases List.mem_append.mp hmem with h | h
    · exact wordRun_not_bracket_mem htokw h
    · rcases List.mem_cons.mp h with h | h
      · exact absurd h (by decide)
      · rcases List.mem_append.mp h with h | h
        · exact wordRun_not_bracket_mem hp h
        · simp at h
  have hb3 : '[' ∉ (p ++ (' ' :: (tok ++ (']' :: [])))) := by
    intro hmem
    rcases List.mem_append.mp hmem with h | h
    · exact wordRun_not_bracket_mem hp h
    · rcases List.mem_cons.mp h with h | h
      · exact absurd h (by decide)
      · rcases List.mem_append.mp h with h | h
        · exact wordRun_not_bracket_mem htokw h
        · simp at h
  have hf1 : findMarkers ('[' :: (tok ++ (']' :: []))) = [] := by
    rw [findMarkers_cons_nomatch hm1]
    exact findMarkers_nil_of_no_bracket hb1
  have hf2 : findMarkers ('[' :: (tok ++ (' ' :: (p ++ (']' :: []))))) = [] := by
    rw [findMarkers_cons_nomatch hm2]
    exact findMarkers_nil_of_no_bracket hb2
  have hf3 : findMarkers ('[' :: (p ++ (' ' :: (tok ++ (']' :: []))))) = [] := by
    rw [findMarkers_cons_nomatch hm3]
    exact findMarkers_nil_of_no_bracket hb3
  refine ⟨⟨hf1, hf2, hf3⟩, ?_, ?_, ?_⟩
  · exact congrArg (fun ms => decideFrom env.data ms (ds.map String.data)) (hf1.trans rfl)
  · exact congrArg (fun ms => decideFrom env.data ms (ds.map String.data)) (hf2.trans rfl)
  · exact congrArg (fun ms => decideFrom env.data ms (ds.map String.data)) (hf3.trans rfl)

/-- Witness for C9 at concrete inputs: the claim's own examples `[CI foo]`
and `[Test all]` are instances of the general theorem. -/
theorem claim9_witness :
    ("[CI foo]" : String).data = '[' :: ("CI".data ++ (' ' :: ("foo".data ++ (']' :: [])))) ∧
    findMarkers ('[' :: ("CI".data ++ (' ' :: ("foo".data ++ (']' :: []))))) = [] ∧
    decide "x" (String.mk ('[' :: ("CI".data ++ (' ' :: ("foo".data ++ (']' :: [])))))) ["d"] =
      decide "x" "" ["d"] ∧
    findMarkers ('[' :: ("Test".data ++ (' ' :: ("all".data ++ (']' :: []))))) = [] := by
  refine ⟨by decide, ?_, ?_, ?_⟩
  · exact (claim9_case_sensitive "x" ["d"] "CI".data "foo".data (Or.inl (by decide))
      (by decide) (by decide) (by decide) (by decide) (by decide)).1.2.1
  · exact (claim9_case_sensitive "x" ["d"] "CI".data "foo".data (Or.inl (by decide))
      (by decide) (by decide) (by decide) (by decide) (by decide)).2.2.1
  · exact (claim9_case_sensitive "x" ["d"] "Test".data "all".data (Or.inr (by decide))
      (by decide) (by decide) (by decide) (by decide) (by decide)).1.2.1

/-- Claim C10 (amended): for the empty build environment and a default set
of non-empty entries, on any message without bare markers `decide` accepts
exactly when some match is a well-formed marker whose payload is exactly
`all`.  The literal claim over all messages is false
(`claim10_counterexample`): a bare marker crashes the script even when a
well-formed `all` marker follows. -/
theorem claim10_empty_env (msg : String) (ds : List String)
    (hds : ∀ d ∈ ds, d ≠ "")
    (h : ∀ m ∈ findMarkers msg.data, m ≠ (none, none)) :
    ((∃ o, decide "" msg ds = Except.ok o ∧ isAccept o = true) ↔
      (∃ m ∈ findMarkers msg.data,
        m = (some "all".data, none) ∨ m = (none, some "all".data))) := by
  have hB : processDefaults ("" : String).data (ds.map String.data) = false := by
    rw [processDefaults_eq_any]
    apply List.any_eq_false.mpr
    intro x hx
    obtain ⟨d, hd, rfl⟩ := List.mem_map.mp hx
    have hne : d.data ≠ [] := by
      intro hn
      exact hds d hd (String.ext hn)
    simp [containsSub_nil hne]
  rw [decide_eq_of_noBare "" msg ds h]
  cases hA : (findMarkers msg.data).any (markerMatches ("" : String).data) with
  | true =>
    obtain ⟨m, hm, hmm⟩ := List.any_eq_true.mp hA
    obtain ⟨hg1, hg2⟩ := findMarkers_groups hm
    constructor
    · intro _
      exact ⟨m, hm, (markerMatches_empty_env hg1 hg2).mp hmm⟩
    · intro _
      exact ⟨Outcome.acceptMarker, by simp, rfl⟩
  | false =>
    rw [hB]
    constructor
    · rintro ⟨o, ho, hacc⟩
      simp only [Except.ok.injEq] at ho
      rw [← ho] at hacc
      simp [isAccept] at hacc
    · rintro ⟨m, hm, hshape⟩
      obtain ⟨hg1, hg2⟩ := findMarkers_groups hm
      have hmm : markerMatches ("" : String).data m = true :=
        (markerMatches_empty_env hg1 hg2).mpr hshape
      rw [List.any_eq_true.mpr ⟨m, hm, hmm⟩] at hA
      exact Bool.noConfusion hA

/-- Witness for C10 at a concrete input: `[all ci]` accepts against the
empty environment even though no substring check can succeed. -/
theorem claim10_witness :
    ∃ o, decide "" "[all ci]" ["x"] = Except.ok o ∧ isAccept o = true :=
  (claim10_empty_env "[all ci]" ["x"] (by decide) (by decide)).mpr
    ⟨(some "all".data, none), by decide, Or.inl rfl⟩

/-- Claim C10 counterexample to the literal statement: the message
`[test] [ci all]` contains a well-formed marker with payload `all` (so the
claim demands acceptance), but the earlier bare `[test]` makes the script
raise instead. -/
theorem claim10_counterexample :
    decide "" "[test] [ci all]" ["x"] = Except.error () ∧
      ((none : Option (List Char)), some "all".data) ∈ findMarkers "[test] [ci all]".data ∧
      ("x" : String) ≠ "" :=
  ⟨rfl, by decide, by decide⟩

end ShouldRunJob
